import Mathlib

/-!
Verification of the untappdtoirc polling/dedup/delivery core.

The Go source is shallowly embedded: check-ins become a Lean structure,
`float64` ratings become exact rationals (with `Option ℚ` where Go would
produce `NaN` from a `0/0` division), `time.Time` creation stamps become
natural numbers ordered by `<` (Go's `Time.After` is a strict comparison),
and the upstream API client becomes an explicit oracle function.
-/

namespace Untappd

/-- One check-in event, as used by the polling core (`untappd.Checkin`):
a unique integer identifier, the owning user's name, the item (beer)
identifier, the user's numeric rating, a creation timestamp, a free-text
comment and an optional venue label. -/
structure Checkin where
  id : ℕ
  userName : String
  beerId : ℕ
  rating : ℚ
  created : ℕ
  comment : String
  venue : Option String
deriving DecidableEq

namespace PolicyA

/-- Policy A `isCheckinNew`, over a per-user history slice (revision with
`func isCheckinNew(checkin *untappd.Checkin, checkins []*untappd.Checkin) bool`):
scan the history and return `false` as soon as an event with the same
identifier is found, else `true`. -/
def isCheckinNew (checkin : Checkin) (checkins : List Checkin) : Bool :=
  !(checkins.any (fun c => c.id == checkin.id))

end PolicyA

namespace PolicyB

/-- Policy B `isCheckinNew`, over a last-seen-timestamp map (revision with
`func isCheckinNew(checkin *untappd.Checkin, lastCheckinTimes map[string]time.Time) bool`):
a user absent from the map yields `false`; otherwise the event is new iff
its creation time is strictly after the stored marker. -/
def isCheckinNew (checkin : Checkin) (lastCheckinTimes : String → Option ℕ) : Bool :=
  match lastCheckinTimes checkin.userName with
  | none => false
  | some lastCheckinTime => decide (lastCheckinTime < checkin.created)

end PolicyB

/-- The comparison used by `byCheckinTime` / `sort.Sort`: ascending by
creation time (Go's `Less` is `Created.Before`; the sorted result is
ascending by `created`). -/
def byCheckinTimeLe (a b : Checkin) : Bool :=
  decide (a.created ≤ b.created)

/-- Model of `sort.Sort(byCheckinTime(checkins))`: sort a batch ascending by
creation time. -/
def sortByCheckinTime (checkins : List Checkin) : List Checkin :=
  checkins.mergeSort byCheckinTimeLe

/-- The marker update performed at the end of one user's poll iteration
(after the batch was sorted oldest-first): if the batch is nonempty, store
the last (hence most recent) element's creation time under that element's
user name. -/
def updateLastCheckinTimes (lastCheckinTimes : String → Option ℕ)
    (checkins : List Checkin) : String → Option ℕ :=
  let sorted := sortByCheckinTime checkins
  match sorted.getLast? with
  | none => lastCheckinTimes
  | some lastCheckin =>
      fun u => if u = lastCheckin.userName then some lastCheckin.created
               else lastCheckinTimes u

/-- The value `math.MaxFloat64`, exactly `(2 - 2^-52) * 2^1023`. Ratings are modelled
as exact rationals; every finite `float64` value lies in
`[-maxFloat64, maxFloat64]`. -/
def maxFloat64 : ℚ := 2 ^ 1024 - 2 ^ 971

/-- Go float division `a / float64(n)`, at the precision of this model:
`n = 0` yields `none`, modelling the `NaN` produced by `0.0/0.0` (every
division by zero performed by this program has a zero numerator). -/
def goDiv (a : ℚ) (n : ℕ) : Option ℚ :=
  if n = 0 then none else some (a / n)

/-- The accumulator threaded through `getStats`'s loop: running min, max,
total, count and the matching check-in with the largest identifier so far. -/
structure StatsAcc where
  min : ℚ
  max : ℚ
  total : ℚ
  count : ℕ
  last : Option Checkin
deriving DecidableEq

/-- Initial accumulator of `getStats`: `min = math.MaxFloat64`,
`max = -math.MaxFloat64`, zero total and count, `lastCheckin = nil`. -/
def statsInit : StatsAcc :=
  ⟨maxFloat64, -maxFloat64, 0, 0, none⟩

/-- One iteration of `getStats`'s loop body over `oldCheckin`. -/
def statsStep (beerId : ℕ) (acc : StatsAcc) (oldCheckin : Checkin) : StatsAcc :=
  if oldCheckin.beerId = beerId then
    { min := if oldCheckin.rating < acc.min then oldCheckin.rating else acc.min
      max := if acc.max < oldCheckin.rating then oldCheckin.rating else acc.max
      total := acc.total + oldCheckin.rating
      count := acc.count + 1
      last := match acc.last with
              | none => some oldCheckin
              | some lc => if lc.id < oldCheckin.id then some oldCheckin
                           else some lc }
  else acc

/-- The record returned by `getStats`. `mean` is `none` when Go would return
`NaN` (`total / float64(0)` with `total = 0`). -/
structure Stats where
  min : ℚ
  max : ℚ
  mean : Option ℚ
  count : ℕ
  last : Option Checkin
deriving DecidableEq

/-- The function `getStats(checkins, beer)`: fold the loop body over the history and
return `(min, max, total/count, count, lastCheckin)`. -/
def getStats (checkins : List Checkin) (beerId : ℕ) : Stats :=
  let acc := checkins.foldl (statsStep beerId) statsInit
  ⟨acc.min, acc.max, goDiv acc.total acc.count, acc.count, acc.last⟩

/-- One outbound chat line, kept as structured data instead of a formatted
string: the three fixed lines of `formatCheckin`, the optional venue line,
and the per-other-user cross rating line (whose bracketed min/max/mean/count
summary is present only when `count > 1`). -/
inductive IrcLine where
  | general (c : Checkin)
  | style (c : Checkin)
  | rating (c : Checkin)
  | venue (c : Checkin) (v : String)
  | crossUser (user : String) (lastCheckin : Checkin)
      (stats : Option (ℚ × ℚ × Option ℚ × ℕ))
deriving DecidableEq

/-- The body of `sendCheckinToIrc`'s cross-user loop for one tracked user:
skip the check-in's own user, compute `getStats`, and emit a line only when
`lastCheckin != nil`; the extra stats summary is attached when `count > 1`. -/
def crossUserLine (checkin : Checkin) (user : String)
    (checkins : List Checkin) : Option IrcLine :=
  if user = checkin.userName then none
  else
    let s := getStats checkins checkin.beerId
    match s.last with
    | none => none
    | some lc =>
        some (.crossUser user lc
          (if 1 < s.count then some (s.min, s.max, s.mean, s.count) else none))

/-- The function `sendCheckinToIrc`: enqueue the general, style and rating lines, the
venue line when a venue is present, then one cross-user line per other
tracked user that has rated the same beer. The Go map of per-user histories
is modelled as an association list (map iteration order is irrelevant to
the claims). -/
def sendCheckinToIrc (checkin : Checkin)
    (userCheckins : List (String × List Checkin)) : List IrcLine :=
  [.general checkin, .style checkin, .rating checkin] ++
  (match checkin.venue with
   | some v => [.venue checkin v]
   | none => []) ++
  userCheckins.filterMap (fun p => crossUserLine checkin p.1 p.2)

/-- The function `getUserStats`: count, mean rating and spread of a user's whole history.
`mean` is `none` where Go produces `NaN` (empty history). The third
component models the standard deviation before the final `math.Sqrt`
(the square root of a rational is not rational); `none` still corresponds
exactly to Go's `NaN`, since `Sqrt(NaN) = NaN` and the square root of the
nonnegative value is finite. -/
def getUserStats (checkins : List Checkin) : ℕ × Option ℚ × Option ℚ :=
  let count := checkins.length
  let sum := checkins.foldl (fun s c => s + c.rating) 0
  let mean := goDiv sum count
  let meanVal : ℚ := match mean with | none => 0 | some m => m
  let stdevSum := checkins.foldl (fun s c => s + (c.rating - meanVal) ^ 2) 0
  (count, mean, goDiv stdevSum count)

/-- The startup statistics emission of `untappdLoop`: one message per
tracked user, built unconditionally from `getUserStats` (user name, check-in
count, average rating, spread). -/
def startupStatsMessages (userCheckins : List (String × List Checkin)) :
    List (String × ℕ × Option ℚ × Option ℚ) :=
  userCheckins.map (fun p => (p.1, getUserStats p.2))

/-- The function `calculatePollInterval`: minutes between poll cycles for a roster of
`numUsers`, from the fixed quota of 100 upstream calls per hour:
`int(math.Ceil(60.0 / (100.0 / numUsers)))`. -/
def calculatePollInterval (numUsers : ℕ) : ℤ :=
  let numApiCalls : ℚ := 100
  let numCallsPerUser : ℚ := numApiCalls / numUsers
  ⌈(60 : ℚ) / numCallsPerUser⌉

/-- The per-user loop of one polling cycle in the revision whose error path
is `log.Println(err); break`: the roster is walked in order, each user's
fetch result is processed, and the first fetch error ends the cycle.
Returns the users whose batch was processed this cycle. The fetch oracle
returns `none` for a transient `listRecent` error. -/
def pollCycleProcessed (fetch : String → Option (List Checkin)) :
    List String → List String
  | [] => []
  | u :: rest =>
      match fetch u with
      | none => []
      | some _ => u :: pollCycleProcessed fetch rest

/-- The untappd API limit on how many checkins of another user may be
retrieved (`const CheckinApiLimit int = 300`). -/
def CheckinApiLimit : ℕ := 300

/-- The value `math.MaxInt32`, the initial pagination ceiling of `getAllCheckins`. -/
def MaxInt32 : ℕ := 2147483647

/-- The paging loop of `getAllCheckins`, with the upstream modelled as an
oracle `fetch maxId limit` giving the result of the first successful
`CheckinsMinMaxIDLimit(userName, 0, maxId, limit)` call (the backoff error
path only sleeps and retries without touching the paging state, and the
claim assumes every call eventually succeeds). Besides the accumulated
check-ins, the list of `(maxId, limit)` pairs actually requested is
returned, so that bounds on the issued requests can be stated. -/
def getAllCheckinsGo (fetch : ℕ → ℕ → List Checkin)
    (allCheckins : List Checkin) (maxId : ℕ) :
    List Checkin × List (ℕ × ℕ) :=
  if hcap : CheckinApiLimit ≤ allCheckins.length then (allCheckins, [])
  else
    let limit := Nat.min (CheckinApiLimit - allCheckins.length) 50
    let page := fetch maxId limit
    if hp : page = [] then (allCheckins, [(maxId, limit)])
    else
      let next := getAllCheckinsGo fetch (allCheckins ++ page) (page.getLast hp).id
      (next.1, (maxId, limit) :: next.2)
termination_by 300 - allCheckins.length
decreasing_by
  have hpos :
      0 < (fetch maxId ((CheckinApiLimit - allCheckins.length).min 50)).length :=
    List.length_pos.mpr hp
  have hlt : allCheckins.length < CheckinApiLimit := Nat.lt_of_not_le hcap
  simp only [CheckinApiLimit] at hlt
  simp only [List.length_append]
  omega

/-- The function `getAllCheckins` for one user: run the paging loop from an empty
accumulator and the `math.MaxInt32` ceiling. -/
def getAllCheckins (fetch : ℕ → ℕ → List Checkin) :
    List Checkin × List (ℕ × ℕ) :=
  getAllCheckinsGo fetch [] MaxInt32

/-- The body of the polling loop's per-check-in step: append the check-in to
the history exactly when `isCheckinNew` confirms it unseen (the revision
that appends before sending). -/
def appendIfNew (history : List Checkin) (c : Checkin) : List Checkin :=
  if PolicyA.isCheckinNew c history then history ++ [c] else history

/-- One user's full poll-cycle update of the latest revision: sort the
polled batch oldest-first, fold the append-if-new step over it, then
re-sort the user's history by creation time. -/
def pollCycleStep (history batch : List Checkin) : List Checkin :=
  sortByCheckinTime ((sortByCheckinTime batch).foldl appendIfNew history)

/-- The effect of `getStats`'s loop body on a matching check-in (the
`then`-branch of `statsStep`), named so that the fold can be analysed on
the filtered history. -/
def statsUpdate (acc : StatsAcc) (oldCheckin : Checkin) : StatsAcc :=
  { min := if oldCheckin.rating < acc.min then oldCheckin.rating else acc.min
    max := if acc.max < oldCheckin.rating then oldCheckin.rating else acc.max
    total := acc.total + oldCheckin.rating
    count := acc.count + 1
    last := match acc.last with
            | none => some oldCheckin
            | some lc => if lc.id < oldCheckin.id then some oldCheckin
                         else some lc }

/-- The check-ins of a history that match a given beer identifier — the
events `getStats` aggregates over. -/
def matchingCheckins (checkins : List Checkin) (beerId : ℕ) : List Checkin :=
  checkins.filter (fun c => c.beerId == beerId)

/-- The spec's StatsEngine test vector: three check-ins on the same beer
with ratings 3.0, 4.0 and 5.0 and identifiers 1, 2, 3. -/
def exampleHistory : List Checkin :=
  [⟨1, "bob", 7, 3, 100, "", none⟩,
   ⟨2, "bob", 7, 4, 200, "", none⟩,
   ⟨3, "bob", 7, 5, 300, "", none⟩]

lemma pairwise_getLast (R : Checkin → Checkin → Prop) (hrefl : ∀ a, R a a)
    (l : List Checkin) (hs : l.Pairwise R) {x : Checkin}
    (hx : l.getLast? = some x) : ∀ y ∈ l, R y x := by
  induction l with
  | nil => simp at hx
  | cons a t ih =>
      cases t with
      | nil =>
          simp only [List.getLast?_singleton, Option.some.injEq] at hx
          intro y hy
          simp only [List.mem_singleton] at hy
          subst hy
          rw [← hx]
          exact hrefl y
      | cons b t' =>
          have hx' : (b :: t').getLast? = some x := by
            simpa [List.getLast?] using hx
          have hmem : x ∈ b :: t' := List.mem_of_mem_getLast? (by simp [hx'])
          rcases List.pairwise_cons.mp hs with ⟨ha, ht⟩
          intro y hy
          rcases List.mem_cons.mp hy with rfl | hy'
          · exact ha x hmem
          · exact ih ht hx' y hy'

lemma sortByCheckinTime_perm (l : List Checkin) :
    (sortByCheckinTime l).Perm l :=
  List.mergeSort_perm l byCheckinTimeLe

lemma sortByCheckinTime_sorted (l : List Checkin) :
    (sortByCheckinTime l).Pairwise (fun a b => a.created ≤ b.created) := by
  have h := @List.sorted_mergeSort Checkin byCheckinTimeLe
    (fun a b c hab hbc => by
      simp only [byCheckinTimeLe, decide_eq_true_eq] at *
      omega)
    (fun a b => by
      simp only [byCheckinTimeLe]
      rcases Nat.le_total a.created b.created with h | h <;> simp [h]) l
  exact h.imp (fun hab => by
    simpa [byCheckinTimeLe, decide_eq_true_eq] using hab)

lemma statsStep_eq (beerId : ℕ) (acc : StatsAcc) (c : Checkin) :
    statsStep beerId acc c =
      if c.beerId = beerId then statsUpdate acc c else acc := rfl

lemma matchingCheckins_cons (c : Checkin) (t : List Checkin) (beerId : ℕ) :
    matchingCheckins (c :: t) beerId =
      if c.beerId = beerId then c :: matchingCheckins t beerId
      else matchingCheckins t beerId := by
  simp only [matchingCheckins, List.filter_cons]
  by_cases h : c.beerId = beerId <;> simp [h]

lemma mem_matchingCheckins {c : Checkin} {l : List Checkin} {beerId : ℕ} :
    c ∈ matchingCheckins l beerId ↔ c ∈ l ∧ c.beerId = beerId := by
  simp [matchingCheckins]

lemma foldl_statsStep_eq_filter (beerId : ℕ) (l : List Checkin) (acc : StatsAcc) :
    l.foldl (statsStep beerId) acc =
      (matchingCheckins l beerId).foldl statsUpdate acc := by
  induction l generalizing acc with
  | nil => rfl
  | cons c t ih =>
      rw [List.foldl_cons, statsStep_eq, matchingCheckins_cons]
      by_cases h : c.beerId = beerId
      · simp only [h, if_pos rfl, ite_true, List.foldl_cons]
        exact ih (statsUpdate acc c)
      · simp only [h, ite_false]
        exact ih acc

lemma ite_lt_eq_min (a b : ℚ) : (if b < a then b else a) = min a b := by
  split_ifs with h
  · exact (min_eq_right h.le).symm
  · exact (min_eq_left (not_lt.mp h)).symm

lemma ite_lt_eq_max (a b : ℚ) : (if a < b then b else a) = max a b := by
  split_ifs with h
  · exact (max_eq_right h.le).symm
  · exact (max_eq_left (not_lt.mp h)).symm

lemma foldl_min_le_init (xs : List ℚ) (a : ℚ) : xs.foldl min a ≤ a := by
  induction xs generalizing a with
  | nil => exact le_refl a
  | cons x t ih => exact le_trans (ih (min a x)) (min_le_left a x)

lemma foldl_min_le_mem (xs : List ℚ) (a x : ℚ) (hx : x ∈ xs) :
    xs.foldl min a ≤ x := by
  induction xs generalizing a with
  | nil => simp at hx
  | cons y t ih =>
      rw [List.foldl_cons]
      rcases List.mem_cons.mp hx with rfl | hx'
      · exact le_trans (foldl_min_le_init t (min a x)) (min_le_right a x)
      · exact ih (min a y) hx'

lemma foldl_min_cases (xs : List ℚ) (a : ℚ) :
    xs.foldl min a = a ∨ xs.foldl min a ∈ xs := by
  induction xs generalizing a with
  | nil => exact Or.inl rfl
  | cons y t ih =>
      rw [List.foldl_cons]
      rcases ih (min a y) with h | h
      · rcases min_choice a y with h' | h'
        · exact Or.inl (by rw [h, h'])
        · exact Or.inr (by rw [h, h']; exact List.mem_cons_self y t)
      · exact Or.inr (List.mem_cons_of_mem y h)

lemma foldl_max_init_le (xs : List ℚ) (a : ℚ) : a ≤ xs.foldl max a := by
  induction xs generalizing a with
  | nil => exact le_refl a
  | cons x t ih => exact le_trans (le_max_left a x) (ih (max a x))

lemma foldl_max_mem_le (xs : List ℚ) (a x : ℚ) (hx : x ∈ xs) :
    x ≤ xs.foldl max a := by
  induction xs generalizing a with
  | nil => simp at hx
  | cons y t ih =>
      rw [List.foldl_cons]
      rcases List.mem_cons.mp hx with rfl | hx'
      · exact le_trans (le_max_right a x) (foldl_max_init_le t (max a x))
      · exact ih (max a y) hx'

lemma foldl_max_cases (xs : List ℚ) (a : ℚ) :
    xs.foldl max a = a ∨ xs.foldl max a ∈ xs := by
  induction xs generalizing a with
  | nil => exact Or.inl rfl
  | cons y t ih =>
      rw [List.foldl_cons]
      rcases ih (max a y) with h | h
      · rcases max_choice a y with h' | h'
        · exact Or.inl (by rw [h, h'])
        · exact Or.inr (by rw [h, h']; exact List.mem_cons_self y t)
      · exact Or.inr (List.mem_cons_of_mem y h)

lemma foldl_statsUpdate_fields (m : List Checkin) (acc : StatsAcc) :
    (m.foldl statsUpdate acc).count = acc.count + m.length ∧
    (m.foldl statsUpdate acc).total =
      acc.total + (m.map (fun c => c.rating)).sum ∧
    (m.foldl statsUpdate acc).min =
      (m.map (fun c => c.rating)).foldl min acc.min ∧
    (m.foldl statsUpdate acc).max =
      (m.map (fun c => c.rating)).foldl max acc.max := by
  induction m generalizing acc with
  | nil => simp
  | cons c t ih =>
      obtain ⟨h1, h2, h3, h4⟩ := ih (statsUpdate acc c)
      refine ⟨?_, ?_, ?_, ?_⟩
      · rw [List.foldl_cons, h1]
        simp only [statsUpdate, List.length_cons]
        omega
      · rw [List.foldl_cons, h2]
        simp only [statsUpdate, List.map_cons, List.sum_cons]
        ring
      · rw [List.foldl_cons, h3]
        simp only [statsUpdate, List.map_cons, List.foldl_cons]
        rw [ite_lt_eq_min]
      · rw [List.foldl_cons, h4]
        simp only [statsUpdate, List.map_cons, List.foldl_cons]
        rw [ite_lt_eq_max]

lemma statsUpdate_last_spec (acc : StatsAcc) (c : Checkin) :
    ∃ x, (statsUpdate acc c).last = some x ∧ c.id ≤ x.id ∧
      (x = c ∨ acc.last = some x) ∧
      ∀ l0, acc.last = some l0 → l0.id ≤ x.id := by
  cases h : acc.last with
  | none =>
      refine ⟨c, ?_, le_refl _, Or.inl rfl, ?_⟩
      · simp [statsUpdate, h]
      · intro l0 h0
        simp at h0
  | some l0 =>
      by_cases hid : l0.id < c.id
      · refine ⟨c, ?_, le_refl _, Or.inl rfl, ?_⟩
        · simp [statsUpdate, h, hid]
        · intro l1 h1
          injection h1 with h2
          rw [← h2]
          exact hid.le
      · refine ⟨l0, ?_, not_lt.mp hid, Or.inr rfl, ?_⟩
        · simp [statsUpdate, h, hid]
        · intro l1 h1
          injection h1 with h2
          rw [← h2]

lemma foldl_statsUpdate_last_none (m : List Checkin) (acc : StatsAcc) :
    (m.foldl statsUpdate acc).last = none ↔ acc.last = none ∧ m = [] := by
  induction m generalizing acc with
  | nil => simp
  | cons c t ih =>
      rw [List.foldl_cons, ih]
      obtain ⟨x, hx, -⟩ := statsUpdate_last_spec acc c
      constructor
      · rintro ⟨h1, -⟩
        rw [hx] at h1
        cases h1
      · rintro ⟨-, h⟩
        cases h

lemma foldl_statsUpdate_last_some (m : List Checkin) (acc : StatsAcc)
    (lc : Checkin) (h : (m.foldl statsUpdate acc).last = some lc) :
    (acc.last = some lc ∨ lc ∈ m) ∧ (∀ c ∈ m, c.id ≤ lc.id) ∧
    (∀ l0, acc.last = some l0 → l0.id ≤ lc.id) := by
  induction m generalizing acc with
  | nil =>
      simp only [List.foldl_nil] at h
      refine ⟨Or.inl h, by simp, ?_⟩
      intro l0 h0
      rw [h] at h0
      injection h0 with h2
      rw [h2]
  | cons c t ih =>
      rw [List.foldl_cons] at h
      obtain ⟨hor, hall, hprev⟩ := ih (statsUpdate acc c) h
      obtain ⟨x, hx, hcx, hxor, hxprev⟩ := statsUpdate_last_spec acc c
      have hxlc : x.id ≤ lc.id := hprev x hx
      refine ⟨?_, ?_, ?_⟩
      · rcases hor with h1 | h1
        · rw [hx] at h1
          cases h1
          rcases hxor with rfl | h2
          · exact Or.inr (List.mem_cons_self _ _)
          · exact Or.inl h2
        · exact Or.inr (List.mem_cons_of_mem c h1)
      · intro y hy
        rcases List.mem_cons.mp hy with rfl | hy'
        · exact le_trans hcx hxlc
        · exact hall y hy'
      · intro l0 h0
        exact le_trans (hxprev l0 h0) hxlc

lemma getStats_eq_matching (checkins : List Checkin) (beerId : ℕ) :
    getStats checkins beerId =
      ⟨((matchingCheckins checkins beerId).foldl statsUpdate statsInit).min,
       ((matchingCheckins checkins beerId).foldl statsUpdate statsInit).max,
       goDiv ((matchingCheckins checkins beerId).foldl statsUpdate statsInit).total
         ((matchingCheckins checkins beerId).foldl statsUpdate statsInit).count,
       ((matchingCheckins checkins beerId).foldl statsUpdate statsInit).count,
       ((matchingCheckins checkins beerId).foldl statsUpdate statsInit).last⟩ := by
  simp only [getStats, foldl_statsStep_eq_filter]

lemma crossUserLine_some (checkin : Checkin) (user : String)
    (cs : List Checkin) (line : IrcLine)
    (h : crossUserLine checkin user cs = some line) :
    user ≠ checkin.userName ∧
    ∃ lc, (getStats cs checkin.beerId).last = some lc ∧
      line = .crossUser user lc
        (if 1 < (getStats cs checkin.beerId).count then
          some ((getStats cs checkin.beerId).min,
                (getStats cs checkin.beerId).max,
                (getStats cs checkin.beerId).mean,
                (getStats cs checkin.beerId).count)
         else none) := by
  by_cases hu : user = checkin.userName
  · simp [crossUserLine, hu] at h
  · refine ⟨hu, ?_⟩
    simp only [crossUserLine, hu, ite_false] at h
    cases hl : (getStats cs checkin.beerId).last with
    | none => rw [hl] at h; cases h
    | some lc =>
        rw [hl] at h
        exact ⟨lc, rfl, by cases h; rfl⟩

lemma mem_crossUser_output (checkin : Checkin)
    (hists : List (String × List Checkin)) (u : String) (lc : Checkin)
    (st : Option (ℚ × ℚ × Option ℚ × ℕ))
    (h : IrcLine.crossUser u lc st ∈ sendCheckinToIrc checkin hists) :
    ∃ cs, (u, cs) ∈ hists ∧ u ≠ checkin.userName ∧
      (getStats cs checkin.beerId).last = some lc := by
  simp only [sendCheckinToIrc, List.mem_append] at h
  rcases h with (h | h) | h
  · simp at h
  · cases hv : checkin.venue with
    | none => rw [hv] at h; simp at h
    | some v => rw [hv] at h; simp at h
  · obtain ⟨p, hp, hline⟩ := List.mem_filterMap.mp h
    obtain ⟨hu, lc', hlast, heq⟩ := crossUserLine_some checkin p.1 p.2 _ hline
    have h1 : p.1 = u := by cases heq; rfl
    have h2 : lc' = lc := by cases heq; rfl
    refine ⟨p.2, ?_, ?_, ?_⟩
    · rw [← h1]
      exact hp
    · rw [← h1]; exact hu
    · rw [← h2]; exact hlast

lemma isCheckinNewA_iff (e : Checkin) (h : List Checkin) :
    PolicyA.isCheckinNew e h = true ↔ ∀ c ∈ h, c.id ≠ e.id := by
  simp [PolicyA.isCheckinNew]

lemma getStats_count_eq (checkins : List Checkin) (beerId : ℕ) :
    (getStats checkins beerId).count =
      (matchingCheckins checkins beerId).length := by
  have h := (foldl_statsUpdate_fields (matchingCheckins checkins beerId)
    statsInit).1
  rw [getStats_eq_matching]
  show ((matchingCheckins checkins beerId).foldl statsUpdate statsInit).count =
    (matchingCheckins checkins beerId).length
  rw [h]
  simp [statsInit]

lemma getStats_mean_eq (checkins : List Checkin) (beerId : ℕ)
    (h : matchingCheckins checkins beerId ≠ []) :
    (getStats checkins beerId).mean =
      some (((matchingCheckins checkins beerId).map (fun c => c.rating)).sum /
        ((matchingCheckins checkins beerId).length : ℚ)) := by
  obtain ⟨h1, h2, -, -⟩ :=
    foldl_statsUpdate_fields (matchingCheckins checkins beerId) statsInit
  have hlen : (matchingCheckins checkins beerId).length ≠ 0 := by
    simpa [List.length_eq_zero] using h
  rw [getStats_eq_matching]
  show goDiv ((matchingCheckins checkins beerId).foldl statsUpdate
      statsInit).total
    ((matchingCheckins checkins beerId).foldl statsUpdate statsInit).count = _
  rw [h1, h2]
  simp [goDiv, statsInit, hlen]

lemma getStats_min_spec (checkins : List Checkin) (beerId : ℕ)
    (hub : ∀ c ∈ checkins, c.rating ≤ maxFloat64)
    (h : matchingCheckins checkins beerId ≠ []) :
    (getStats checkins beerId).min ∈
      (matchingCheckins checkins beerId).map (fun c => c.rating) ∧
    ∀ r ∈ (matchingCheckins checkins beerId).map (fun c => c.rating),
      (getStats checkins beerId).min ≤ r := by
  have hmin : (getStats checkins beerId).min =
      ((matchingCheckins checkins beerId).map (fun c => c.rating)).foldl
        min maxFloat64 := by
    obtain ⟨-, -, h3, -⟩ :=
      foldl_statsUpdate_fields (matchingCheckins checkins beerId) statsInit
    rw [getStats_eq_matching]
    show ((matchingCheckins checkins beerId).foldl statsUpdate statsInit).min = _
    rw [h3]
    simp [statsInit]
  have hle : ∀ r ∈ (matchingCheckins checkins beerId).map (fun c => c.rating),
      (getStats checkins beerId).min ≤ r := by
    intro r hr
    rw [hmin]
    exact foldl_min_le_mem _ _ r hr
  refine ⟨?_, hle⟩
  rcases foldl_min_cases
      ((matchingCheckins checkins beerId).map (fun c => c.rating))
      maxFloat64 with hc | hc
  · obtain ⟨c0, hc0⟩ := List.exists_mem_of_ne_nil _ h
    have hr0 : c0.rating ∈
        (matchingCheckins checkins beerId).map (fun c => c.rating) :=
      List.mem_map_of_mem _ hc0
    have h1 : (getStats checkins beerId).min ≤ c0.rating := hle _ hr0
    have h2 : c0.rating ≤ maxFloat64 :=
      hub c0 (mem_matchingCheckins.mp hc0).1
    have hresult : (getStats checkins beerId).min = maxFloat64 := by
      rw [hmin, hc]
    have h3 : (getStats checkins beerId).min = c0.rating :=
      le_antisymm h1 (by rw [hresult]; exact h2)
    rw [h3]
    exact hr0
  · rw [hmin]
    exact hc

lemma getStats_max_spec (checkins : List Checkin) (beerId : ℕ)
    (hlb : ∀ c ∈ checkins, -maxFloat64 ≤ c.rating)
    (h : matchingCheckins checkins beerId ≠ []) :
    (getStats checkins beerId).max ∈
      (matchingCheckins checkins beerId).map (fun c => c.rating) ∧
    ∀ r ∈ (matchingCheckins checkins beerId).map (fun c => c.rating),
      r ≤ (getStats checkins beerId).max := by
  have hmax : (getStats checkins beerId).max =
      ((matchingCheckins checkins beerId).map (fun c => c.rating)).foldl
        max (-maxFloat64) := by
    obtain ⟨-, -, -, h4⟩ :=
      foldl_statsUpdate_fields (matchingCheckins checkins beerId) statsInit
    rw [getStats_eq_matching]
    show ((matchingCheckins checkins beerId).foldl statsUpdate statsInit).max = _
    rw [h4]
    simp [statsInit]
  have hle : ∀ r ∈ (matchingCheckins checkins beerId).map (fun c => c.rating),
      r ≤ (getStats checkins beerId).max := by
    intro r hr
    rw [hmax]
    exact foldl_max_mem_le _ _ r hr
  refine ⟨?_, hle⟩
  rcases foldl_max_cases
      ((matchingCheckins checkins beerId).map (fun c => c.rating))
      (-maxFloat64) with hc | hc
  · obtain ⟨c0, hc0⟩ := List.exists_mem_of_ne_nil _ h
    have hr0 : c0.rating ∈
        (matchingCheckins checkins beerId).map (fun c => c.rating) :=
      List.mem_map_of_mem _ hc0
    have h1 : c0.rating ≤ (getStats checkins beerId).max := hle _ hr0
    have h2 : -maxFloat64 ≤ c0.rating :=
      hlb c0 (mem_matchingCheckins.mp hc0).1
    have hresult : (getStats checkins beerId).max = -maxFloat64 := by
      rw [hmax, hc]
    have h3 : (getStats checkins beerId).max = c0.rating :=
      le_antisymm (by rw [hresult]; exact h2) h1
    rw [h3]
    exact hr0
  · rw [hmax]
    exact hc

lemma getStats_last_none_iff (checkins : List Checkin) (beerId : ℕ) :
    (getStats checkins beerId).last = none ↔
      matchingCheckins checkins beerId = [] := by
  rw [getStats_eq_matching]
  have h := foldl_statsUpdate_last_none (matchingCheckins checkins beerId)
    statsInit
  simpa [statsInit] using h

lemma getStats_last_some_spec (checkins : List Checkin) (beerId : ℕ)
    (lc : Checkin) (h : (getStats checkins beerId).last = some lc) :
    lc ∈ matchingCheckins checkins beerId ∧
    ∀ c ∈ matchingCheckins checkins beerId, c.id ≤ lc.id := by
  rw [getStats_eq_matching] at h
  have h' : ((matchingCheckins checkins beerId).foldl statsUpdate
      statsInit).last = some lc := h
  obtain ⟨hor, hall, -⟩ := foldl_statsUpdate_last_some _ _ _ h'
  rcases hor with h1 | h1
  · rw [statsInit] at h1
    cases h1
  · exact ⟨h1, hall⟩

lemma crossUserLine_of_last_some (checkin : Checkin) (u : String)
    (cs : List Checkin) (lc : Checkin) (hu : u ≠ checkin.userName)
    (hl : (getStats cs checkin.beerId).last = some lc) :
    crossUserLine checkin u cs =
      some (.crossUser u lc
        (if 1 < (getStats cs checkin.beerId).count then
          some ((getStats cs checkin.beerId).min,
                (getStats cs checkin.beerId).max,
                (getStats cs checkin.beerId).mean,
                (getStats cs checkin.beerId).count)
         else none)) := by
  simp [crossUserLine, hu, hl]

/-- C1: NewEventFilter Policy A. For every event and history, `isCheckinNew`
marks the event new iff no event in the history has the same identifier;
hence a known identifier is never marked new and a never-seen identifier is
always marked new, regardless of any timestamps. -/
theorem policyA_new_iff_id_not_in_history (e : Checkin) (h : List Checkin) :
    PolicyA.isCheckinNew e h = true ↔ ∀ c ∈ h, c.id ≠ e.id := by
  simp [PolicyA.isCheckinNew]

/-- C2: NewEventFilter Policy B. An event of a user with no marker entry is
not new; with an entry, the event is new iff its creation time is strictly
greater than the marker; and after a nonempty poll batch for a user is
processed, that user's marker equals the maximum creation timestamp in the
batch (the batch is sorted oldest-first and the last element is stored). -/
theorem policyB_marker_semantics (e : Checkin) (m : String → Option ℕ)
    (batch : List Checkin) (u : String)
    (hne : batch ≠ []) (hu : ∀ b ∈ batch, b.userName = u) :
    (m e.userName = none → PolicyB.isCheckinNew e m = false) ∧
    (∀ t, m e.userName = some t →
      (PolicyB.isCheckinNew e m = true ↔ t < e.created)) ∧
    (∃ t, updateLastCheckinTimes m batch u = some t ∧
      (∃ b ∈ batch, b.created = t) ∧ ∀ b ∈ batch, b.created ≤ t) := by
  refine ⟨?_, ?_, ?_⟩
  · intro hnone
    simp [PolicyB.isCheckinNew, hnone]
  · intro t ht
    simp [PolicyB.isCheckinNew, ht]
  · have hperm := sortByCheckinTime_perm batch
    have hsne : sortByCheckinTime batch ≠ [] := by
      intro hnil
      apply hne
      have hlen := hperm.length_eq
      rw [hnil] at hlen
      exact List.length_eq_zero.mp hlen.symm
    obtain ⟨lc, hlc⟩ : ∃ lc, (sortByCheckinTime batch).getLast? = some lc := by
      cases hl : (sortByCheckinTime batch).getLast? with
      | none =>
          exact absurd (List.getLast?_eq_none_iff.mp hl) hsne
      | some lc => exact ⟨lc, rfl⟩
    have hlcmem : lc ∈ batch :=
      hperm.mem_iff.mp (List.mem_of_mem_getLast? (by simp [hlc]))
    refine ⟨lc.created, ?_, ⟨lc, hlcmem, rfl⟩, ?_⟩
    · have huser : lc.userName = u := hu lc hlcmem
      simp [updateLastCheckinTimes, hlc, huser]
    · intro b hb
      exact pairwise_getLast (fun a b => a.created ≤ b.created)
        (fun a => le_refl _) _ (sortByCheckinTime_sorted batch) hlc b
        (hperm.mem_iff.mpr hb)

theorem policyB_marker_semantics_witness :
    ((fun (_ : String) => (none : Option ℕ)) "alice" = none →
      PolicyB.isCheckinNew ⟨5, "alice", 1, 4, 10, "", none⟩
        (fun _ => none) = false) ∧
    (∀ t, (fun (_ : String) => (none : Option ℕ)) "alice" = some t →
      (PolicyB.isCheckinNew ⟨5, "alice", 1, 4, 10, "", none⟩
        (fun _ => none) = true ↔ t < 10)) ∧
    (∃ t, updateLastCheckinTimes (fun _ => none)
        [⟨5, "alice", 1, 4, 10, "", none⟩, ⟨6, "alice", 1, 3, 7, "", none⟩]
        "alice" = some t ∧
      (∃ b ∈ [⟨5, "alice", 1, 4, 10, "", none⟩,
              (⟨6, "alice", 1, 3, 7, "", none⟩ : Checkin)], b.created = t) ∧
      ∀ b ∈ [⟨5, "alice", 1, 4, 10, "", none⟩,
             (⟨6, "alice", 1, 3, 7, "", none⟩ : Checkin)], b.created ≤ t) :=
  policyB_marker_semantics ⟨5, "alice", 1, 4, 10, "", none⟩
    (fun _ => none)
    [⟨5, "alice", 1, 4, 10, "", none⟩, ⟨6, "alice", 1, 3, 7, "", none⟩]
    "alice" (by simp) (by simp)

/-- C3: StatsEngine. For every history and beer, `getStats` returns the
count, exact mean, attained minimum and maximum of the ratings of exactly
the matching check-ins (min/max under the assumption that ratings are
finite doubles), and `lastCheckin` is the matching event with the greatest
identifier; on the spec's 3.0/4.0/5.0 test vector the result is
min 3, max 5, mean 4, count 3 with the id-3 event as most recent; and a
cross-user stats line is only ever produced for a user whose matching
count is nonzero. -/
theorem getStats_spec (checkins : List Checkin) (beerId : ℕ)
    (hfin : ∀ c ∈ checkins, -maxFloat64 ≤ c.rating ∧ c.rating ≤ maxFloat64) :
    (getStats checkins beerId).count =
      (matchingCheckins checkins beerId).length ∧
    (matchingCheckins checkins beerId ≠ [] →
      (getStats checkins beerId).mean =
        some (((matchingCheckins checkins beerId).map (fun c => c.rating)).sum /
          ((matchingCheckins checkins beerId).length : ℚ))) ∧
    (matchingCheckins checkins beerId ≠ [] →
      ((getStats checkins beerId).min ∈
          (matchingCheckins checkins beerId).map (fun c => c.rating) ∧
        ∀ r ∈ (matchingCheckins checkins beerId).map (fun c => c.rating),
          (getStats checkins beerId).min ≤ r)) ∧
    (matchingCheckins checkins beerId ≠ [] →
      ((getStats checkins beerId).max ∈
          (matchingCheckins checkins beerId).map (fun c => c.rating) ∧
        ∀ r ∈ (matchingCheckins checkins beerId).map (fun c => c.rating),
          r ≤ (getStats checkins beerId).max)) ∧
    ((getStats checkins beerId).last = none ↔
      matchingCheckins checkins beerId = []) ∧
    (∀ lc, (getStats checkins beerId).last = some lc →
      lc ∈ matchingCheckins checkins beerId ∧
      ∀ c ∈ matchingCheckins checkins beerId, c.id ≤ lc.id) ∧
    getStats exampleHistory 7 =
      ⟨3, 5, some 4, 3, some ⟨3, "bob", 7, 5, 300, "", none⟩⟩ ∧
    (∀ (checkin : Checkin) (hists : List (String × List Checkin))
        (u : String) (lc : Checkin) (st : Option (ℚ × ℚ × Option ℚ × ℕ)),
      IrcLine.crossUser u lc st ∈ sendCheckinToIrc checkin hists →
      ∃ cs, (u, cs) ∈ hists ∧ (getStats cs checkin.beerId).count ≠ 0) := by
  refine ⟨getStats_count_eq _ _, getStats_mean_eq _ _,
    fun hm => getStats_min_spec _ _ (fun c hc => (hfin c hc).2) hm,
    fun hm => getStats_max_spec _ _ (fun c hc => (hfin c hc).1) hm,
    getStats_last_none_iff _ _,
    fun lc hlc => getStats_last_some_spec _ _ lc hlc, ?_, ?_⟩
  · norm_num [getStats, exampleHistory, statsStep, statsInit, goDiv,
      maxFloat64, Stats.mk.injEq]
  · intro checkin hists u lc st hmem
    obtain ⟨cs, hcs, hu, hlast⟩ := mem_crossUser_output checkin hists u lc st hmem
    refine ⟨cs, hcs, ?_⟩
    have hm : matchingCheckins cs checkin.beerId ≠ [] := by
      intro hnil
      have hn := (getStats_last_none_iff cs checkin.beerId).mpr hnil
      rw [hlast] at hn
      cases hn
    rw [getStats_count_eq]
    simpa [List.length_eq_zero] using hm

theorem getStats_spec_witness :
    (∀ c ∈ exampleHistory, -maxFloat64 ≤ c.rating ∧ c.rating ≤ maxFloat64) ∧
    ((getStats exampleHistory 7).count =
      (matchingCheckins exampleHistory 7).length ∧
    (matchingCheckins exampleHistory 7 ≠ [] →
      (getStats exampleHistory 7).mean =
        some (((matchingCheckins exampleHistory 7).map (fun c => c.rating)).sum /
          ((matchingCheckins exampleHistory 7).length : ℚ))) ∧
    (matchingCheckins exampleHistory 7 ≠ [] →
      ((getStats exampleHistory 7).min ∈
          (matchingCheckins exampleHistory 7).map (fun c => c.rating) ∧
        ∀ r ∈ (matchingCheckins exampleHistory 7).map (fun c => c.rating),
          (getStats exampleHistory 7).min ≤ r)) ∧
    (matchingCheckins exampleHistory 7 ≠ [] →
      ((getStats exampleHistory 7).max ∈
          (matchingCheckins exampleHistory 7).map (fun c => c.rating) ∧
        ∀ r ∈ (matchingCheckins exampleHistory 7).map (fun c => c.rating),
          r ≤ (getStats exampleHistory 7).max)) ∧
    ((getStats exampleHistory 7).last = none ↔
      matchingCheckins exampleHistory 7 = []) ∧
    (∀ lc, (getStats exampleHistory 7).last = some lc →
      lc ∈ matchingCheckins exampleHistory 7 ∧
      ∀ c ∈ matchingCheckins exampleHistory 7, c.id ≤ lc.id) ∧
    getStats exampleHistory 7 =
      ⟨3, 5, some 4, 3, some ⟨3, "bob", 7, 5, 300, "", none⟩⟩ ∧
    (∀ (checkin : Checkin) (hists : List (String × List Checkin))
        (u : String) (lc : Checkin) (st : Option (ℚ × ℚ × Option ℚ × ℕ)),
      IrcLine.crossUser u lc st ∈ sendCheckinToIrc checkin hists →
      ∃ cs, (u, cs) ∈ hists ∧ (getStats cs checkin.beerId).count ≠ 0)) := by
  have hfin : ∀ c ∈ exampleHistory,
      -maxFloat64 ≤ c.rating ∧ c.rating ≤ maxFloat64 := by
    intro c hc
    simp only [exampleHistory, List.mem_cons, List.not_mem_nil, or_false] at hc
    rcases hc with rfl | rfl | rfl <;> constructor <;> norm_num [maxFloat64]
  exact ⟨hfin, getStats_spec exampleHistory 7 hfin⟩

/-- C10: for a user history containing no check-in on the given beer,
`getStats` returns the degenerate record — sentinel min `MaxFloat64`,
sentinel max `-MaxFloat64`, `NaN` mean (`none`), count 0 and
`lastCheckin = nil`; `sendCheckinToIrc` emits a cross-user line for a user
exactly when that user's `getStats` returns a non-nil `lastCheckin`; hence
the degenerate values of an empty matching set never reach any outbound
line through this path. -/
theorem getStats_empty_match_and_cross_lines :
    (∀ (cs : List Checkin) (beerId : ℕ), (∀ x ∈ cs, x.beerId ≠ beerId) →
      getStats cs beerId = ⟨maxFloat64, -maxFloat64, none, 0, none⟩) ∧
    (∀ (checkin : Checkin) (hists : List (String × List Checkin))
        (u : String) (lc : Checkin) (st : Option (ℚ × ℚ × Option ℚ × ℕ)),
      IrcLine.crossUser u lc st ∈ sendCheckinToIrc checkin hists →
      ∃ cs, (u, cs) ∈ hists ∧ u ≠ checkin.userName ∧
        (getStats cs checkin.beerId).last = some lc ∧ lc ∈ cs ∧
        lc.beerId = checkin.beerId) ∧
    (∀ (checkin : Checkin) (hists : List (String × List Checkin))
        (u : String) (cs : List Checkin), (u, cs) ∈ hists →
      u ≠ checkin.userName → (getStats cs checkin.beerId).last ≠ none →
      ∃ lc st, IrcLine.crossUser u lc st ∈ sendCheckinToIrc checkin hists) := by
  refine ⟨?_, ?_, ?_⟩
  · intro cs beerId hno
    have hm : matchingCheckins cs beerId = [] := by
      rw [matchingCheckins, List.filter_eq_nil_iff]
      intro a ha
      simpa using hno a ha
    rw [getStats_eq_matching, hm]
    simp [statsInit, goDiv]
  · intro checkin hists u lc st hmem
    obtain ⟨cs, hcs, hu, hlast⟩ := mem_crossUser_output checkin hists u lc st hmem
    obtain ⟨hin, -⟩ := getStats_last_some_spec cs checkin.beerId lc hlast
    obtain ⟨hincs, hbeer⟩ := mem_matchingCheckins.mp hin
    exact ⟨cs, hcs, hu, hlast, hincs, hbeer⟩
  · intro checkin hists u cs hmem hu hlast
    cases hl : (getStats cs checkin.beerId).last with
    | none => exact absurd hl hlast
    | some lc =>
        refine ⟨lc, (if 1 < (getStats cs checkin.beerId).count then
            some ((getStats cs checkin.beerId).min,
                  (getStats cs checkin.beerId).max,
                  (getStats cs checkin.beerId).mean,
                  (getStats cs checkin.beerId).count)
          else none), ?_⟩
        simp only [sendCheckinToIrc, List.mem_append]
        exact Or.inr (List.mem_filterMap.mpr
          ⟨(u, cs), hmem, crossUserLine_of_last_some checkin u cs lc hu hl⟩)

theorem getStats_empty_match_witness :
    (∀ x ∈ exampleHistory, x.beerId ≠ 9) ∧
    getStats exampleHistory 9 = ⟨maxFloat64, -maxFloat64, none, 0, none⟩ := by
  have h : ∀ x ∈ exampleHistory, x.beerId ≠ 9 := by
    intro x hx
    simp only [exampleHistory, List.mem_cons, List.not_mem_nil, or_false] at hx
    rcases hx with rfl | rfl | rfl <;> norm_num
  exact ⟨h, getStats_empty_match_and_cross_lines.1 exampleHistory 9 h⟩


lemma getAllCheckinsGo_bounded (fetch : ℕ → ℕ → List Checkin)
    (hlen : ∀ m l, (fetch m l).length ≤ l) :
    ∀ (n : ℕ) (acc : List Checkin) (maxId : ℕ),
      CheckinApiLimit - acc.length ≤ n → acc.length ≤ CheckinApiLimit →
      ((getAllCheckinsGo fetch acc maxId).1.length ≤ CheckinApiLimit ∧
       ∀ r ∈ (getAllCheckinsGo fetch acc maxId).2, r.2 ≤ 50) := by
  intro n
  induction n with
  | zero =>
      intro acc maxId hn hacc
      have hcap : CheckinApiLimit ≤ acc.length := by omega
      rw [getAllCheckinsGo.eq_def]
      simp [hcap, hacc]
  | succ n ih =>
      intro acc maxId hn hacc
      rw [getAllCheckinsGo.eq_def]
      by_cases hcap : CheckinApiLimit ≤ acc.length
      · simp [hcap, hacc]
      · simp only [hcap, dite_false]
        by_cases hp : fetch maxId ((CheckinApiLimit - acc.length).min 50) = []
        · simp only [hp, dite_true]
          refine ⟨hacc, ?_⟩
          intro r hr
          simp only [List.mem_singleton] at hr
          rw [hr]
          exact Nat.min_le_right _ _
        · simp only [hp, dite_false]
          have hpagelen :
              (fetch maxId ((CheckinApiLimit - acc.length).min 50)).length ≤
                (CheckinApiLimit - acc.length).min 50 := hlen _ _
          have hpos :
              0 < (fetch maxId ((CheckinApiLimit - acc.length).min 50)).length :=
            List.length_pos.mpr hp
          have happlen :
              (acc ++ fetch maxId ((CheckinApiLimit - acc.length).min 50)).length ≤
                CheckinApiLimit := by
            rw [List.length_append]
            have h1 : (CheckinApiLimit - acc.length).min 50 ≤
                CheckinApiLimit - acc.length := Nat.min_le_left _ _
            omega
          have hmeas :
              CheckinApiLimit -
                (acc ++ fetch maxId ((CheckinApiLimit - acc.length).min 50)).length ≤
              n := by
            rw [List.length_append]
            omega
          obtain ⟨ha, hb⟩ := ih _ _ hmeas happlen
          refine ⟨ha, ?_⟩
          intro r hr
          simp only [List.mem_cons] at hr
          rcases hr with rfl | hr
          · exact Nat.min_le_right _ _
          · exact hb r hr

lemma pairwise_desc_nodup (l : List Checkin)
    (h : l.Pairwise (fun a b => b.id < a.id)) : (l.map Checkin.id).Nodup := by
  rw [List.Nodup, List.pairwise_map]
  exact h.imp (fun hab => ne_of_gt hab)

lemma getAllCheckinsGo_pairwise (fetch : ℕ → ℕ → List Checkin)
    (hdesc : ∀ m l, (fetch m l).Pairwise (fun a b => b.id < a.id))
    (hlt : ∀ m l, ∀ c ∈ fetch m l, c.id < m) :
    ∀ (n : ℕ) (acc : List Checkin) (maxId : ℕ),
      CheckinApiLimit - acc.length ≤ n →
      acc.Pairwise (fun a b => b.id < a.id) →
      (∀ c ∈ acc, maxId ≤ c.id) →
      (getAllCheckinsGo fetch acc maxId).1.Pairwise
        (fun a b => b.id < a.id) := by
  intro n
  induction n with
  | zero =>
      intro acc maxId hn hpw hmax
      have hcap : CheckinApiLimit ≤ acc.length := by omega
      rw [getAllCheckinsGo.eq_def]
      simp [hcap, hpw]
  | succ n ih =>
      intro acc maxId hn hpw hmax
      rw [getAllCheckinsGo.eq_def]
      by_cases hcap : CheckinApiLimit ≤ acc.length
      · simp [hcap, hpw]
      · simp only [hcap, dite_false]
        by_cases hp : fetch maxId ((CheckinApiLimit - acc.length).min 50) = []
        · simp only [hp, dite_true]
          exact hpw
        · simp only [hp, dite_false]
          have hpos :
              0 < (fetch maxId ((CheckinApiLimit - acc.length).min 50)).length :=
            List.length_pos.mpr hp
          have hmeas :
              CheckinApiLimit -
                (acc ++ fetch maxId ((CheckinApiLimit - acc.length).min 50)).length ≤
              n := by
            rw [List.length_append]
            omega
          apply ih _ _ hmeas
          · rw [List.pairwise_append]
            refine ⟨hpw, hdesc _ _, ?_⟩
            intro a ha b hb
            exact lt_of_lt_of_le (hlt _ _ b hb) (hmax a ha)
          · intro c hc
            have hlastmem :
                (fetch maxId ((CheckinApiLimit - acc.length).min 50)).getLast hp ∈
                  fetch maxId ((CheckinApiLimit - acc.length).min 50) :=
              List.getLast_mem hp
            rcases List.mem_append.mp hc with hca | hcp
            · exact le_of_lt (lt_of_lt_of_le (hlt _ _ _ hlastmem) (hmax c hca))
            · have hlast? :
                  (fetch maxId ((CheckinApiLimit - acc.length).min 50)).getLast? =
                    some ((fetch maxId
                      ((CheckinApiLimit - acc.length).min 50)).getLast hp) :=
                List.getLast?_eq_getLast _ hp
              have hpw' : (fetch maxId
                  ((CheckinApiLimit - acc.length).min 50)).Pairwise
                    (fun a b => b.id ≤ a.id) :=
                (hdesc _ _).imp (fun hab => le_of_lt hab)
              exact pairwise_getLast (fun a b => b.id ≤ a.id)
                (fun a => le_refl _) _ hpw' hlast? c hcp

lemma mem_foldl_appendIfNew (batch : List Checkin) :
    ∀ (hist : List Checkin) (c : Checkin), c ∈ hist →
      c ∈ batch.foldl appendIfNew hist := by
  induction batch with
  | nil => intro hist c hc; simpa using hc
  | cons x t ih =>
      intro hist c hc
      rw [List.foldl_cons]
      apply ih
      unfold appendIfNew
      split
      · exact List.mem_append_left _ hc
      · exact hc

lemma foldl_appendIfNew_nodup (batch : List Checkin) :
    ∀ (hist : List Checkin), (hist.map Checkin.id).Nodup →
      ((batch.foldl appendIfNew hist).map Checkin.id).Nodup := by
  induction batch with
  | nil => intro hist h; simpa using h
  | cons x t ih =>
      intro hist h
      rw [List.foldl_cons]
      apply ih
      unfold appendIfNew
      by_cases hnew : PolicyA.isCheckinNew x hist = true
      · rw [if_pos hnew, List.map_append]
        refine List.Nodup.append h (by simp) ?_
        intro a ha hb
        simp only [List.map_cons, List.map_nil, List.mem_singleton] at hb
        subst hb
        obtain ⟨y, hy, hyid⟩ := List.mem_map.mp ha
        exact (isCheckinNewA_iff x hist).mp hnew y hy hyid
      · rw [if_neg hnew]
        exact h

lemma foldl_appendIfNew_sub (batch : List Checkin) :
    ∀ (hist : List Checkin) (c : Checkin),
      c ∈ batch.foldl appendIfNew hist → c ∈ hist ∨ c ∈ batch := by
  induction batch with
  | nil => intro hist c hc; exact Or.inl (by simpa using hc)
  | cons x t ih =>
      intro hist c hc
      rw [List.foldl_cons] at hc
      rcases ih _ c hc with h1 | h1
      · unfold appendIfNew at h1
        by_cases hnew : PolicyA.isCheckinNew x hist = true
        · rw [if_pos hnew] at h1
          rcases List.mem_append.mp h1 with h2 | h2
          · exact Or.inl h2
          · simp only [List.mem_singleton] at h2
            exact Or.inr (h2 ▸ List.mem_cons_self x t)
        · rw [if_neg hnew] at h1
          exact Or.inl h1
      · exact Or.inr (List.mem_cons_of_mem x h1)

lemma foldl_appendIfNew_fresh (batch : List Checkin) :
    ∀ (hist : List Checkin) (c : Checkin),
      c ∈ batch.foldl appendIfNew hist → c ∉ hist →
      ∀ y ∈ hist, y.id ≠ c.id := by
  induction batch with
  | nil =>
      intro hist c hc hnot
      exact absurd (by simpa using hc) hnot
  | cons x t ih =>
      intro hist c hc hnot
      rw [List.foldl_cons] at hc
      by_cases hmem : c ∈ appendIfNew hist x
      · unfold appendIfNew at hmem
        by_cases hnew : PolicyA.isCheckinNew x hist = true
        · rw [if_pos hnew] at hmem
          rcases List.mem_append.mp hmem with h2 | h2
          · exact absurd h2 hnot
          · simp only [List.mem_singleton] at h2
            subst h2
            exact (isCheckinNewA_iff c hist).mp hnew
        · rw [if_neg hnew] at hmem
          exact absurd hmem hnot
      · have hall := ih _ c hc hmem
        intro y hy
        apply hall
        unfold appendIfNew
        split
        · exact List.mem_append_left _ hy
        · exact hy

/-- C5: evaluation at the failing input. For a tracked user whose seeded
history is empty, `getUserStats` yields count 0 with a `NaN` mean and `NaN`
spread (both `none` in this model), and the startup statistics emission
still enqueues a message carrying those values for that user instead of
skipping the line. -/
theorem empty_history_stats_message_emitted :
    getUserStats [] = (0, none, none) ∧
    startupStatsMessages [("alice", [])] = [("alice", 0, none, none)] :=
  ⟨rfl, rfl⟩

/-- C4 counterexample: the spec's example `calculatePollInterval 3 = 20`
fails on the code, which returns `ceil(60 / (100/3)) = ceil(1.8) = 2`. -/
theorem pollInterval_spec_example_false :
    calculatePollInterval 3 ≠ 20 := by
  have h2 : calculatePollInterval 3 = 2 := by
    simp only [calculatePollInterval]
    rw [Int.ceil_eq_iff]
    norm_num
  rw [h2]
  decide

/-- C4 amended: for every roster size `n ≥ 1`,
`calculatePollInterval n = ceil(60 / (100/n)) = ceil(3n/5)` minutes, which
makes the long-run upstream call rate (`n` calls every interval) at most
100 calls per hour; the spec's concrete examples are corrected to
`n = 3 → 2` minutes and `n = 7 → 5` minutes. -/
theorem pollInterval_formula (n : ℕ) (h : 1 ≤ n) :
    calculatePollInterval n = ⌈(3 * (n : ℚ)) / 5⌉ ∧
    60 * (n : ℤ) ≤ 100 * calculatePollInterval n ∧
    calculatePollInterval 3 = 2 ∧ calculatePollInterval 7 = 5 := by
  have hn : (n : ℚ) ≠ 0 := by positivity
  have hform : ∀ m : ℕ, 1 ≤ m → calculatePollInterval m = ⌈(3 * (m : ℚ)) / 5⌉ := by
    intro m hm
    have hm0 : (m : ℚ) ≠ 0 := by positivity
    simp only [calculatePollInterval]
    congr 1
    field_simp
    ring
  refine ⟨hform n h, ?_, ?_, ?_⟩
  · rw [hform n h]
    have h1 : (3 * (n : ℚ)) / 5 ≤ (⌈(3 * (n : ℚ)) / 5⌉ : ℚ) := Int.le_ceil _
    have h2 : 60 * (n : ℚ) ≤ 100 * (⌈(3 * (n : ℚ)) / 5⌉ : ℚ) := by linarith
    exact_mod_cast h2
  · rw [hform 3 (by norm_num)]
    rw [Int.ceil_eq_iff]
    norm_num
  · rw [hform 7 (by norm_num)]
    rw [Int.ceil_eq_iff]
    norm_num

theorem pollInterval_formula_witness :
    calculatePollInterval 3 = ⌈(3 * (3 : ℚ)) / 5⌉ ∧
    60 * (3 : ℤ) ≤ 100 * calculatePollInterval 3 ∧
    calculatePollInterval 3 = 2 ∧ calculatePollInterval 7 = 5 :=
  pollInterval_formula 3 (by norm_num)

/-- C6 counterexample: in the revision whose live-poll error path is
`log.Println(err); break`, a transient fetch error for the first user ends
the whole cycle, so the second user is NOT polled in that cycle — refuting
the claim that only the failing user is skipped. -/
theorem poll_error_skips_other_users :
    pollCycleProcessed (fun u => if u = "a" then none else some [])
      ["a", "b"] = [] ∧
    "b" ∉ pollCycleProcessed (fun u => if u = "a" then none else some [])
      ["a", "b"] := by
  constructor
  · rfl
  · intro hmem
    simp [pollCycleProcessed] at hmem

/-- C6 amended: during live polling, a transient fetch error is logged and
aborts the remainder of the current cycle: exactly the users before the
failing one are processed, and the failing user together with every later
user is deferred to the next scheduled poll; no backoff state exists on
this path. -/
theorem poll_error_aborts_cycle (fetch : String → Option (List Checkin))
    (us : List String) (u : String) (vs : List String)
    (hus : ∀ x ∈ us, fetch x ≠ none) (hu : fetch u = none) :
    pollCycleProcessed fetch (us ++ u :: vs) = us := by
  induction us with
  | nil => simp [pollCycleProcessed, hu]
  | cons a t ih =>
      have ha : fetch a ≠ none := hus a (by simp)
      cases hfa : fetch a with
      | none => exact absurd hfa ha
      | some l =>
          have ht := ih (fun x hx => hus x (by simp [hx]))
          simp only [List.cons_append, pollCycleProcessed, hfa, List.append_eq, ht]

theorem poll_error_aborts_cycle_witness :
    pollCycleProcessed (fun u => if u = "a" then none else some [])
      (["x"] ++ "a" :: ["b"]) = ["x"] :=
  poll_error_aborts_cycle _ ["x"] "a" ["b"]
    (by intro x hx; simp at hx; subst hx; simp) (by simp)

/-- C7: HistoryFetcher backfill. When every upstream call eventually
succeeds (modelled by a total fetch oracle) and the upstream honours the
requested page size, the paging loop of `getAllCheckins` terminates (it is
a total function) with at most `CheckinApiLimit = 300` accumulated events,
and every page request it issues asks for at most 50 events. -/
theorem getAllCheckins_bounded (fetch : ℕ → ℕ → List Checkin)
    (hlen : ∀ m l, (fetch m l).length ≤ l) :
    (getAllCheckins fetch).1.length ≤ CheckinApiLimit ∧
    ∀ r ∈ (getAllCheckins fetch).2, r.2 ≤ 50 := by
  have h := getAllCheckinsGo_bounded fetch hlen CheckinApiLimit [] MaxInt32
    (by simp) (by simp)
  exact h

theorem getAllCheckins_bounded_witness :
    (∀ m l, ((fun (_ : ℕ) (_ : ℕ) => ([] : List Checkin)) m l).length ≤ l) ∧
    ((getAllCheckins (fun _ _ => [])).1.length ≤ CheckinApiLimit ∧
     ∀ r ∈ (getAllCheckins (fun _ _ => ([] : List Checkin))).2, r.2 ≤ 50) :=
  ⟨by intro m l; simp, getAllCheckins_bounded (fun _ _ => []) (by intro m l; simp)⟩

/-- C8: per-user history invariant. After backfill seeding (when the
upstream returns each page newest-first with strictly descending
identifiers below the requested ceiling) all identifiers in the seeded
history are unique; and one user's poll-cycle update preserves identifier
uniqueness, removes no event (up to the re-sort by creation time the loop
performs), adds only events of the polled batch, and every added event's
identifier was confirmed absent from the prior history. -/
theorem history_ids_unique_and_append_only (fetch : ℕ → ℕ → List Checkin)
    (hdesc : ∀ m l, (fetch m l).Pairwise (fun a b => b.id < a.id))
    (hlt : ∀ m l, ∀ c ∈ fetch m l, c.id < m) :
    ((getAllCheckins fetch).1.map Checkin.id).Nodup ∧
    (∀ hist batch : List Checkin, (hist.map Checkin.id).Nodup →
      ((pollCycleStep hist batch).map Checkin.id).Nodup) ∧
    (∀ hist batch : List Checkin, ∀ c ∈ hist, c ∈ pollCycleStep hist batch) ∧
    (∀ hist batch : List Checkin, ∀ c ∈ pollCycleStep hist batch,
      c ∈ hist ∨ c ∈ batch) ∧
    (∀ hist batch : List Checkin, ∀ c ∈ pollCycleStep hist batch,
      c ∉ hist → ∀ y ∈ hist, y.id ≠ c.id) := by
  refine ⟨?_, ?_, ?_, ?_, ?_⟩
  · exact pairwise_desc_nodup _
      (getAllCheckinsGo_pairwise fetch hdesc hlt CheckinApiLimit [] MaxInt32
        (by simp) (by simp) (by simp))
  · intro hist batch h
    have hperm := sortByCheckinTime_perm
      ((sortByCheckinTime batch).foldl appendIfNew hist)
    exact ((hperm.map Checkin.id).nodup_iff).mpr
      (foldl_appendIfNew_nodup (sortByCheckinTime batch) hist h)
  · intro hist batch c hc
    have hperm := sortByCheckinTime_perm
      ((sortByCheckinTime batch).foldl appendIfNew hist)
    exact hperm.mem_iff.mpr (mem_foldl_appendIfNew _ hist c hc)
  · intro hist batch c hc
    have hperm := sortByCheckinTime_perm
      ((sortByCheckinTime batch).foldl appendIfNew hist)
    rcases foldl_appendIfNew_sub _ hist c (hperm.mem_iff.mp hc) with h1 | h1
    · exact Or.inl h1
    · exact Or.inr ((sortByCheckinTime_perm batch).mem_iff.mp h1)
  · intro hist batch c hc hnot
    have hperm := sortByCheckinTime_perm
      ((sortByCheckinTime batch).foldl appendIfNew hist)
    exact foldl_appendIfNew_fresh _ hist c (hperm.mem_iff.mp hc) hnot

theorem history_ids_unique_witness :
    (∀ m l, ((fun (_ : ℕ) (_ : ℕ) => ([] : List Checkin)) m l).Pairwise
      (fun a b => b.id < a.id)) ∧
    (((getAllCheckins (fun _ _ => [])).1.map Checkin.id).Nodup ∧
    (∀ hist batch : List Checkin, (hist.map Checkin.id).Nodup →
      ((pollCycleStep hist batch).map Checkin.id).Nodup) ∧
    (∀ hist batch : List Checkin, ∀ c ∈ hist, c ∈ pollCycleStep hist batch) ∧
    (∀ hist batch : List Checkin, ∀ c ∈ pollCycleStep hist batch,
      c ∈ hist ∨ c ∈ batch) ∧
    (∀ hist batch : List Checkin, ∀ c ∈ pollCycleStep hist batch,
      c ∉ hist → ∀ y ∈ hist, y.id ≠ c.id)) :=
  ⟨by intro m l; simp,
   history_ids_unique_and_append_only (fun _ _ => [])
     (by intro m l; simp) (by intro m l c hc; simp at hc)⟩

end Untappd
